import Mathlib

open scoped List

/-!
Verification of the multi-recording transcript reconciliation engine
(Deduplicator and Timeline Merger) and of the surrounding agent layer.

The engine itself is not part of the shown source tree (only its wrapper
contracts in `ai_transcription_agent.py` are), so the Deduplicator and the
Timeline Merger are modelled from the specification.  The agent-layer
definitions (`Agent.__init__` argument binding, `AITranscriptionAgent.process`
operation sequencing, `ContentProcessingAgent._merge_consecutive_segments`)
are translated directly from the Python source.

Times are modelled as rationals: none of the verified properties depends on
binary floating-point rounding.
-/

/-- Modelled from the spec: a `Segment` (§3) is one utterance, with times in
seconds, transcript text, the identity of the source recording, and an
optional ASR confidence. -/
structure Segment where
  start : ℚ
  «end» : ℚ
  text : String
  source_id : String
  confidence : Option ℚ
deriving DecidableEq, Repr

/-- Modelled from the spec: a `Recording` (§3) is one source's ordered
sequence of segments plus its declared language and clock offset. -/
structure Recording where
  source_id : String
  language : String
  clock_offset : ℚ
  segments : List Segment
deriving DecidableEq, Repr

/-- Modelled from the spec: the engine's output (§3).  `merged_at` is
provenance wall-clock metadata supplied by the environment and is not part of
the model. -/
structure MergedTranscript where
  segments : List Segment
  usernames : List String
  languages : List String
  total_duration : ℚ
deriving DecidableEq, Repr

/-- Modelled from the spec: the error taxonomy of §7 (fatal input-validation
errors). -/
inductive EngineError where
  | ErrInputUnsorted
  | ErrEmptyInput
deriving DecidableEq, Repr

deriving instance DecidableEq for Except

/-- Splits a lower-cased character stream at whitespace, accumulating the
current token in reverse. -/
def tokenizeChars : List Char → List Char → List String
  | [], cur => if cur.isEmpty then [] else [String.mk cur.reverse]
  | c :: cs, cur =>
    if c.isWhitespace then
      if cur.isEmpty then tokenizeChars cs []
      else String.mk cur.reverse :: tokenizeChars cs []
    else tokenizeChars cs (c :: cur)

/-- Case-insensitive whitespace tokenization used by the normalized text
comparison of §4.1. -/
def tokensOf (s : String) : List String :=
  tokenizeChars (s.data.map Char.toLower) []

/-- Modelled from the spec: case-insensitive, whitespace-normalized form of a
segment's text (§4.1). -/
def normalizeText (s : String) : String :=
  String.intercalate " " (tokensOf s)

/-- Modelled from the spec: normalized text similarity (§4.1): exact match
after normalization counts as similarity 1.0, otherwise a token-overlap
(Jaccard) score on the normalized tokens. -/
def textSimilarity (a b : String) : ℚ :=
  if normalizeText a = normalizeText b then 1
  else
    let ta := (tokensOf a).dedup
    let tb := (tokensOf b).dedup
    let u := (ta ++ tb).dedup
    if u.length = 0 then 1
    else ((ta.filter (fun t => t ∈ tb)).length : ℚ) / (u.length : ℚ)

/-- Modelled from the spec: the Deduplicator's configuration (§4.1). -/
structure DedupParams where
  time_window : ℚ
  similarity_threshold : ℚ
deriving DecidableEq, Repr

/-- Modelled from the spec: default parameters of §4.1 — `time_window` 2.0 s
and `similarity_threshold` 0.92. -/
def defaultDedupParams : DedupParams :=
  { time_window := 2, similarity_threshold := 23/25 }

/-- Ordering of segments by `start`. -/
def startLe (a b : Segment) : Prop := a.start ≤ b.start

instance : DecidableRel startLe := fun a b =>
  inferInstanceAs (Decidable (a.start ≤ b.start))

/-- Modelled from the spec: a malformed segment (§4.1 failure semantics) has
negative duration or text that is empty after normalization; it is dropped
rather than aborting the recording. -/
def malformedSeg (s : Segment) : Prop :=
  s.«end» < s.start ∨ normalizeText s.text = ""

instance : DecidablePred malformedSeg := fun s =>
  inferInstanceAs (Decidable (s.«end» < s.start ∨ normalizeText s.text = ""))

/-- Modelled from the spec: the duplicate test of §4.1 — similarity at least
the threshold, and the candidate's start within `time_window` of the last
kept segment's end. -/
def isDup (p : DedupParams) (last c : Segment) : Prop :=
  p.similarity_threshold ≤ textSimilarity last.text c.text ∧
    |c.start - last.«end»| ≤ p.time_window

instance (p : DedupParams) (last c : Segment) : Decidable (isDup p last c) :=
  inferInstanceAs (Decidable (_ ≤ _ ∧ _ ≤ _))

/-- Modelled from the spec: which of two duplicates is kept (§4.1) — the one
with the higher confidence; on ties (including absent confidences) the
shorter-duration one; if still tied, the first occurrence.  The kept
segment's `end` is extended to the max of the two ends. -/
def chooseKept (last c : Segment) : Segment :=
  let e := max last.«end» c.«end»
  let byDuration : Segment :=
    if c.«end» - c.start < last.«end» - last.start
    then { c with «end» := e }
    else { last with «end» := e }
  match last.confidence, c.confidence with
  | some a, some b =>
    if b < a then { last with «end» := e }
    else if a < b then { c with «end» := e }
    else byDuration
  | _, _ => byDuration

/-- Modelled from the spec: the single linear pass of §4.1.  `acc` holds the
output so far in reverse order, its head being the last kept segment. -/
def dedupLoop (p : DedupParams) : List Segment → List Segment → List Segment
  | acc, [] => acc.reverse
  | acc, c :: rest =>
    if malformedSeg c then dedupLoop p acc rest
    else
      match acc with
      | [] => dedupLoop p [c] rest
      | last :: accT =>
        if isDup p last c then dedupLoop p (chooseKept last c :: accT) rest
        else dedupLoop p (c :: last :: accT) rest

/-- Modelled from the spec: the Deduplicator (§4.1).  Fails with
`ErrInputUnsorted` when the input list is not sorted by `start`; otherwise
performs the left-to-right duplicate-removal pass. -/
def deduplicate (p : DedupParams) (segs : List Segment) :
    Except EngineError (List Segment) :=
  if List.Pairwise startLe segs then .ok (dedupLoop p [] segs)
  else .error .ErrInputUnsorted

/-- The text of the §8 duplicate-removal scenario. -/
def exampleText : String := "we open the door"

/-- First segment of the §8 scenario. -/
def exSeg1 : Segment :=
  { start := 0, «end» := 2, text := exampleText, source_id := "rec", confidence := none }

/-- Second segment of the §8 scenario. -/
def exSeg2 : Segment :=
  { start := 21/10, «end» := 4, text := exampleText, source_id := "rec", confidence := none }

/-- Third segment of the §8 scenario. -/
def exSeg3 : Segment :=
  { start := 10, «end» := 12, text := exampleText, source_id := "rec", confidence := none }

/-- The input segment list of the §8 duplicate-removal scenario. -/
def exampleSegments : List Segment := [exSeg1, exSeg2, exSeg3]

unseal Rat.add Rat.sub Rat.mul Rat.inv in
/-- C1: on the §8 scenario the Deduplicator does return exactly two segments
with the third kept unchanged, but the merged first segment spans 2.1–4, not
0–4: the §4.1 tie-break (no confidences, so the strictly shorter second
segment, 1.9 s vs 2.0 s, is kept and only its `end` is extended to the max
of the two ends) keeps the candidate's start 2.1. -/
theorem dedup_example_counterexample :
    (deduplicate defaultDedupParams exampleSegments).map
        (fun l => l.map (fun s => (s.start, s.«end»))) =
      .ok [((21/10 : ℚ), (4 : ℚ)), (10, 12)] ∧
    (deduplicate defaultDedupParams exampleSegments).map
        (fun l => l.map (fun s => (s.start, s.«end»))) ≠
      .ok [((0 : ℚ), (4 : ℚ)), (10, 12)] := by
  constructor
  · decide
  · decide

unseal Rat.add Rat.sub Rat.mul Rat.inv in
/-- C1 (amended): on the §8 scenario with default parameters the Deduplicator
returns exactly two segments: the first two are merged into a single segment
spanning start 2.1 to end 4 (the shorter second segment is kept by the §4.1
tie-break and its end, already 4, is the max of the two ends), and the third
segment is kept unchanged. -/
theorem dedup_example_amended :
    deduplicate defaultDedupParams exampleSegments =
      .ok [{ start := 21/10, «end» := 4, text := exampleText,
             source_id := "rec", confidence := none },
           exSeg3] := by
  decide

/-- Modelled from the spec: the deterministic ordering of §4.2 used to order
the Recording list — position in a caller-provided priority list, or, absent
such a list, alphabetical `source_id`. -/
def priorityLe (pri : Option (List String)) (a b : String) : Prop :=
  match pri with
  | some ps => ps.indexOf a ≤ ps.indexOf b
  | none => a ≤ b

instance (pri : Option (List String)) : DecidableRel (priorityLe pri) := fun a b =>
  match pri with
  | some ps => inferInstanceAs (Decidable (ps.indexOf a ≤ ps.indexOf b))
  | none => inferInstanceAs (Decidable (a ≤ b))

/-- The §4.2 recording ordering, lifted to Recordings via their source ids. -/
def recRel (pri : Option (List String)) (r1 r2 : Recording) : Prop :=
  priorityLe pri r1.source_id r2.source_id

instance (pri : Option (List String)) : DecidableRel (recRel pri) := fun r1 r2 =>
  inferInstanceAs (Decidable (priorityLe pri r1.source_id r2.source_id))

/-- `priorityLe` is total. -/
theorem priorityLe_total (pri : Option (List String)) (a b : String) :
    priorityLe pri a b ∨ priorityLe pri b a := by
  cases pri with
  | none => exact le_total a b
  | some ps => exact Nat.le_total _ _

/-- `priorityLe` is reflexive. -/
theorem priorityLe_refl (pri : Option (List String)) (a : String) :
    priorityLe pri a a := by
  cases pri with
  | none => exact le_refl a
  | some ps => exact Nat.le_refl _

/-- `priorityLe` is transitive. -/
theorem priorityLe_trans (pri : Option (List String)) {a b c : String}
    (h1 : priorityLe pri a b) (h2 : priorityLe pri b c) : priorityLe pri a c := by
  cases pri with
  | none => exact le_trans h1 h2
  | some ps => exact Nat.le_trans h1 h2

instance (pri : Option (List String)) : IsTotal Recording (recRel pri) :=
  ⟨fun a b => priorityLe_total pri a.source_id b.source_id⟩

instance (pri : Option (List String)) : IsTrans Recording (recRel pri) :=
  ⟨fun _ _ _ h1 h2 => priorityLe_trans pri h1 h2⟩

instance (pri : Option (List String)) : IsRefl Recording (recRel pri) :=
  ⟨fun a => priorityLe_refl pri a.source_id⟩

/-- Modelled from the spec: §4.2 orders the Recording list deterministically
by the configured priority (or alphabetical source id) before merging. -/
def orderRecs (pri : Option (List String)) (recs : List Recording) : List Recording :=
  List.insertionSort (recRel pri) recs

/-- Modelled from the spec: §4.2 computes each segment's absolute start/end
by adding the recording's `clock_offset`, keeping the segment tagged with its
source identity. -/
def absStamp (r : Recording) (s : Segment) : Segment :=
  { s with start := s.start + r.clock_offset,
           «end» := s.«end» + r.clock_offset,
           source_id := r.source_id }

/-- Tags every segment of every recording with its recording's cursor index
(starting at `i`) and applies the clock offset. -/
def tagWith : ℕ → List Recording → List (List (ℕ × Segment))
  | _, [] => []
  | i, r :: rs => (r.segments.map (fun s => (i, absStamp r s))) :: tagWith (i + 1) rs

/-- The selection order of the §4.2 k-way merge: smallest absolute start
first, ties broken by the recording's position in the ordered list. -/
def lexRel (a b : ℕ × Segment) : Prop :=
  a.2.start < b.2.start ∨ (a.2.start = b.2.start ∧ a.1 ≤ b.1)

instance : DecidableRel lexRel := fun a b =>
  inferInstanceAs (Decidable (a.2.start < b.2.start ∨ (a.2.start = b.2.start ∧ a.1 ≤ b.1)))

/-- Merge of two streams already ordered by `r`, preferring the left stream
on ties, as a priority queue over two cursors would. -/
def mergeBy (r : α → α → Prop) [DecidableRel r] : List α → List α → List α
  | [], ys => ys
  | x :: xs, [] => x :: xs
  | x :: xs, y :: ys =>
    if r x y then x :: mergeBy r xs (y :: ys)
    else y :: mergeBy r (x :: xs) ys
termination_by l1 l2 => l1.length + l2.length

/-- Modelled from the spec: the §4.2 k-way merge, realized as the fold of
binary ordered-stream merges over the priority-ordered cursor list; the
selection order `lexRel` (least absolute start, then least cursor index) is
exactly the priority-queue selection of §4.2. -/
def kMerge (ls : List (List (ℕ × Segment))) : List (ℕ × Segment) :=
  ls.foldl (fun acc l => mergeBy lexRel acc l) []

/-- First-appearance deduplication: keeps each value's first occurrence, in
order of first appearance. -/
def firstAppearance (l : List String) : List String :=
  l.foldl (fun acc x => if x ∈ acc then acc else acc ++ [x]) []

/-- Modelled from the spec: `total_duration` (§3) is `max(end)` over all
merged segments minus `min(start)`, and 0 when the merged list is empty. -/
def totalDuration : List Segment → ℚ
  | [] => 0
  | s :: t =>
    (t.foldl (fun m x => max m x.«end») s.«end») -
      (t.foldl (fun m x => min m x.start) s.start)

/-- Modelled from the spec: the Timeline Merger (§4.2).  Fails with
`ErrEmptyInput` on zero recordings; otherwise orders the recordings, k-way
merges their offset-adjusted segments, and computes the aggregate metadata.
A recording with no segments is not fatal: it contributes no segments but
still contributes its declared language. -/
def mergeTranscriptions (pri : Option (List String)) (recs : List Recording) :
    Except EngineError MergedTranscript :=
  match recs with
  | [] => .error .ErrEmptyInput
  | _ :: _ =>
    let recs' := orderRecs pri recs
    let segs := (kMerge (tagWith 0 recs')).map Prod.snd
    .ok { segments := segs
          usernames := firstAppearance (segs.map Segment.source_id)
          languages := firstAppearance (recs'.map Recording.language)
          total_duration := totalDuration segs }

/-- Deduplicates every recording's segment list in order, failing if any one
of them is unsorted. -/
def dedupRecordings (p : DedupParams) : List Recording → Except EngineError (List Recording)
  | [] => .ok []
  | r :: rs =>
    match deduplicate p r.segments with
    | .error e => .error e
    | .ok segs =>
      match dedupRecordings p rs with
      | .error e => .error e
      | .ok rest => .ok ({ r with segments := segs } :: rest)

/-- Modelled from the spec: the §2 data flow — per-recording Deduplicator
passes followed by the Timeline Merger fan-in. -/
def pipelineRun (p : DedupParams) (pri : Option (List String)) (recs : List Recording) :
    Except EngineError MergedTranscript :=
  match dedupRecordings p recs with
  | .error e => .error e
  | .ok recs2 => mergeTranscriptions pri recs2

/-- One formal parameter of a Python callable: its name and whether it has a
default value (from `agent.py`, `Agent.__init__(self, log_level="INFO",
log_file=None)`). -/
structure PyParam where
  name : String
  hasDefault : Bool
deriving DecidableEq, Repr

/-- A Python value, as far as the argument-binding model needs one. -/
inductive PyVal where
  | str : String → PyVal
  | dict : List (String × PyVal) → PyVal
  | pynone : PyVal

/-- The error a Python call can raise during argument binding. -/
inductive PyError where
  | typeError
deriving DecidableEq, Repr

/-- The non-`self` parameters of `Agent.__init__` in `agent.py`: `log_level`
and `log_file`, both with defaults. -/
def agentInitParams : List PyParam :=
  [{ name := "log_level", hasDefault := true }, { name := "log_file", hasDefault := true }]

/-- Python positional-argument binding: raises `TypeError` when more
positional arguments are supplied than there are parameters, or when a
parameter without a default is left unbound. -/
def bindPositional (ps : List PyParam) (args : List PyVal) :
    Except PyError (List (String × PyVal)) :=
  if ps.length < args.length then .error .typeError
  else if (ps.drop args.length).any (fun q => !q.hasDefault) then .error .typeError
  else .ok ((ps.map PyParam.name).zip args)

/-- `AITranscriptionAgent.__init__` (ai_transcription_agent.py, line 54):
`super().__init__("AITranscription", final_config, log_level, log_file)` —
four positional arguments bound against `Agent.__init__`'s two parameters. -/
def constructAITranscriptionAgent (config : PyVal) (logLevel : String) (logFile : PyVal) :
    Except PyError (List (String × PyVal)) :=
  bindPositional agentInitParams [.str "AITranscription", config, .str logLevel, logFile]

/-- `ContentProcessingAgent.__init__` (content_processing_agent.py, line 53):
`super().__init__("ContentProcessing", final_config, log_level, log_file)`. -/
def constructContentProcessingAgent (config : PyVal) (logLevel : String) (logFile : PyVal) :
    Except PyError (List (String × PyVal)) :=
  bindPositional agentInitParams [.str "ContentProcessing", config, .str logLevel, logFile]

/-- `AIAnalysisAgent.__init__` (ai_analysis_agent.py, line 57):
`super().__init__("AIAnalysis", final_config, log_level, log_file)`. -/
def constructAIAnalysisAgent (config : PyVal) (logLevel : String) (logFile : PyVal) :
    Except PyError (List (String × PyVal)) :=
  bindPositional agentInitParams [.str "AIAnalysis", config, .str logLevel, logFile]

/-- The ordered list of operation steps `AITranscriptionAgent.process`
executes for a given `operation` argument (ai_transcription_agent.py,
lines 108–115): the three `if operation in [...]` blocks run in textual
order, transcription, then cleaning, then merging. -/
def processOps (operation : String) : List String :=
  (if operation = "transcribe" ∨ operation = "full" then ["transcription"] else []) ++
    (if operation = "clean" ∨ operation = "full" then ["cleaning"] else []) ++
      (if operation = "merge" ∨ operation = "full" then ["merging"] else [])

/-- A segment dictionary as handled by
`ContentProcessingAgent._merge_consecutive_segments`: `start`, `end`,
`text`, `username`. -/
structure TranscriptSeg where
  start : ℚ
  «end» : ℚ
  text : String
  username : String
deriving DecidableEq, Repr

/-- Ordering of transcript segment dictionaries by `start`. -/
def tsStartLe (a b : TranscriptSeg) : Prop := a.start ≤ b.start

instance : DecidableRel tsStartLe := fun a b =>
  inferInstanceAs (Decidable (a.start ≤ b.start))

/-- The loop of `_merge_consecutive_segments` (content_processing_agent.py,
lines 374–402): `acc` is the `merged` list in reverse, its head the list's
last element; a segment from the same user starting within 2 seconds of the
last element's end is folded into it (text concatenated, end replaced),
otherwise a copy of it is appended. -/
def mergeConsecutiveLoop : List TranscriptSeg → List TranscriptSeg → List TranscriptSeg
  | acc, [] => acc.reverse
  | [], seg :: rest => mergeConsecutiveLoop [seg] rest
  | last :: accT, seg :: rest =>
    if seg.username = last.username ∧ seg.start - last.«end» ≤ 2 then
      mergeConsecutiveLoop
        ({ last with text := last.text ++ " " ++ seg.text, «end» := seg.«end» } :: accT) rest
    else
      mergeConsecutiveLoop (seg :: last :: accT) rest

/-- `ContentProcessingAgent._merge_consecutive_segments`: empty input is
returned as is; otherwise the loop starts from a copy of the first
segment. -/
def mergeConsecutiveSegments : List TranscriptSeg → List TranscriptSeg
  | [] => []
  | s :: rest => mergeConsecutiveLoop [s] rest

/-- `mergeBy` is a permutation of the concatenation of its inputs. -/
theorem mergeBy_perm {α : Type} (r : α → α → Prop) [DecidableRel r] :
    ∀ (xs ys : List α), mergeBy r xs ys ~ xs ++ ys := by
  intro xs
  induction xs with
  | nil => intro ys; simp [mergeBy]
  | cons x xs ihx =>
    intro ys
    induction ys with
    | nil => simp [mergeBy]
    | cons y ys ihy =>
      rw [mergeBy]
      by_cases h : r x y
      · rw [if_pos h]
        exact List.Perm.cons x (ihx (y :: ys))
      · rw [if_neg h]
        calc y :: mergeBy r (x :: xs) ys
            ~ y :: (x :: xs ++ ys) := List.Perm.cons y ihy
          _ ~ (x :: xs) ++ (y :: ys) := List.perm_middle.symm

/-- Membership in `mergeBy`. -/
theorem mem_mergeBy {α : Type} (r : α → α → Prop) [DecidableRel r]
    (xs ys : List α) (a : α) : a ∈ mergeBy r xs ys ↔ a ∈ xs ∨ a ∈ ys := by
  rw [(mergeBy_perm r xs ys).mem_iff, List.mem_append]

/-- `mergeBy` of two `r`-sorted lists is `r`-sorted, for a total transitive
`r`. -/
theorem pairwise_mergeBy {α : Type} (r : α → α → Prop) [DecidableRel r]
    (htot : ∀ a b, r a b ∨ r b a) (htr : ∀ {a b c}, r a b → r b c → r a c) :
    ∀ (n : ℕ) (xs ys : List α), xs.length + ys.length ≤ n →
      xs.Pairwise r → ys.Pairwise r → (mergeBy r xs ys).Pairwise r := by
  intro n
  induction n with
  | zero =>
    intro xs ys hlen _ _
    cases xs with
    | nil => cases ys with
      | nil => simp [mergeBy]
      | cons y ys => simp at hlen
    | cons x xs => simp at hlen
  | succ n ih =>
    intro xs ys hlen hxs hys
    cases xs with
    | nil => simpa [mergeBy] using hys
    | cons x xs =>
      cases ys with
      | nil => simpa [mergeBy] using hxs
      | cons y ys =>
        rw [mergeBy]
        by_cases h : r x y
        · rw [if_pos h]
          refine List.pairwise_cons.2 ⟨?_, ?_⟩
          · intro z hz
            rcases (mem_mergeBy r xs (y :: ys) z).1 hz with hz | hz
            · exact (List.pairwise_cons.1 hxs).1 z hz
            · rcases List.mem_cons.1 hz with rfl | hz
              · exact h
              · exact htr h ((List.pairwise_cons.1 hys).1 z hz)
          · refine ih xs (y :: ys) ?_ (List.pairwise_cons.1 hxs).2 hys
            simp only [List.length_cons] at hlen ⊢
            omega
        · rw [if_neg h]
          have hyx : r y x := (htot x y).resolve_left h
          refine List.pairwise_cons.2 ⟨?_, ?_⟩
          · intro z hz
            rcases (mem_mergeBy r (x :: xs) ys z).1 hz with hz | hz
            · rcases List.mem_cons.1 hz with rfl | hz
              · exact hyx
              · exact htr hyx ((List.pairwise_cons.1 hxs).1 z hz)
            · exact (List.pairwise_cons.1 hys).1 z hz
          · refine ih (x :: xs) ys ?_ hxs (List.pairwise_cons.1 hys).2
            simp only [List.length_cons] at hlen ⊢
            omega

/-- The fold of binary merges is a permutation of the flattened cursor
lists. -/
theorem foldl_mergeBy_perm {α : Type} (r : α → α → Prop) [DecidableRel r] :
    ∀ (ls : List (List α)) (acc : List α),
      ls.foldl (fun a l => mergeBy r a l) acc ~ acc ++ ls.flatten := by
  intro ls
  induction ls with
  | nil => intro acc; simp
  | cons l ls ih =>
    intro acc
    calc (l :: ls).foldl (fun a l => mergeBy r a l) acc
        = ls.foldl (fun a l => mergeBy r a l) (mergeBy r acc l) := by
          simp [List.foldl_cons]
      _ ~ mergeBy r acc l ++ ls.flatten := ih _
      _ ~ (acc ++ l) ++ ls.flatten := (mergeBy_perm r acc l).append_right _
      _ = acc ++ (l :: ls).flatten := by simp [List.flatten_cons, List.append_assoc]

/-- The fold of binary merges of sorted lists is sorted. -/
theorem foldl_mergeBy_pairwise {α : Type} (r : α → α → Prop) [DecidableRel r]
    (htot : ∀ a b, r a b ∨ r b a) (htr : ∀ {a b c}, r a b → r b c → r a c) :
    ∀ (ls : List (List α)) (acc : List α), acc.Pairwise r →
      (∀ l ∈ ls, l.Pairwise r) →
      (ls.foldl (fun a l => mergeBy r a l) acc).Pairwise r := by
  intro ls
  induction ls with
  | nil => intro acc hacc _; simpa using hacc
  | cons l ls ih =>
    intro acc hacc hls
    simp only [List.foldl_cons]
    refine ih _ ?_ (fun l' hl' => hls l' (List.mem_cons_of_mem _ hl'))
    exact pairwise_mergeBy r htot htr (acc.length + l.length) acc l le_rfl hacc
      (hls l (List.mem_cons_self _ _))

/-- `lexRel` is total. -/
theorem lexRel_total (a b : ℕ × Segment) : lexRel a b ∨ lexRel b a := by
  rcases lt_trichotomy a.2.start b.2.start with h | h | h
  · exact Or.inl (Or.inl h)
  · rcases Nat.le_total a.1 b.1 with h1 | h1
    · exact Or.inl (Or.inr ⟨h, h1⟩)
    · exact Or.inr (Or.inr ⟨h.symm, h1⟩)
  · exact Or.inr (Or.inl h)

/-- `lexRel` is transitive. -/
theorem lexRel_trans {a b c : ℕ × Segment} (h1 : lexRel a b) (h2 : lexRel b c) :
    lexRel a c := by
  rcases h1 with h1 | ⟨h1e, h1i⟩
  · rcases h2 with h2 | ⟨h2e, _⟩
    · exact Or.inl (lt_trans h1 h2)
    · exact Or.inl (h2e ▸ h1)
  · rcases h2 with h2 | ⟨h2e, h2i⟩
    · exact Or.inl (h1e ▸ h2)
    · exact Or.inr ⟨h1e.trans h2e, Nat.le_trans h1i h2i⟩

/-- `kMerge` permutes the flattened tagged segment lists. -/
theorem kMerge_perm (ls : List (List (ℕ × Segment))) : kMerge ls ~ ls.flatten := by
  simpa using foldl_mergeBy_perm lexRel ls []

/-- `kMerge` of `lexRel`-sorted cursor lists is `lexRel`-sorted. -/
theorem kMerge_pairwise (ls : List (List (ℕ × Segment)))
    (h : ∀ l ∈ ls, l.Pairwise lexRel) : (kMerge ls).Pairwise lexRel :=
  foldl_mergeBy_pairwise lexRel lexRel_total lexRel_trans ls [] (List.Pairwise.nil) h

/-- Everything in a `tagWith` cursor list comes from some recording's
segments, offset-adjusted and stamped. -/
theorem tagWith_flatten_origin :
    ∀ (k : ℕ) (rs : List Recording) (p : ℕ × Segment),
      p ∈ (tagWith k rs).flatten →
      ∃ r ∈ rs, ∃ s0 ∈ r.segments, p.2 = absStamp r s0 := by
  intro k rs
  induction rs generalizing k with
  | nil => intro p hp; simp [tagWith] at hp
  | cons r rs ih =>
    intro p hp
    rw [tagWith] at hp
    rcases List.mem_flatten.1 hp with ⟨l, hl, hpl⟩
    rcases List.mem_cons.1 hl with rfl | hl
    · rcases List.mem_map.1 hpl with ⟨s0, hs0, rfl⟩
      exact ⟨r, List.mem_cons_self _ _, s0, hs0, rfl⟩
    · rcases ih (k + 1) p (List.mem_flatten.2 ⟨l, hl, hpl⟩) with ⟨q, hq, s0, hs0, he⟩
      exact ⟨q, List.mem_cons_of_mem _ hq, s0, hs0, he⟩

/-- Every recording's segment appears, stamped, in the flattened `tagWith`
lists. -/
theorem tagWith_flatten_surj :
    ∀ (k : ℕ) (rs : List Recording) (r : Recording) (s0 : Segment),
      r ∈ rs → s0 ∈ r.segments →
      ∃ i, (i, absStamp r s0) ∈ (tagWith k rs).flatten := by
  intro k rs
  induction rs generalizing k with
  | nil => intro r s0 hr _; simp at hr
  | cons q rs ih =>
    intro r s0 hr hs0
    rw [tagWith]
    rcases List.mem_cons.1 hr with rfl | hr
    · exact ⟨k, List.mem_flatten.2 ⟨_, List.mem_cons_self _ _,
        List.mem_map.2 ⟨s0, hs0, rfl⟩⟩⟩
    · rcases ih (k + 1) r s0 hr hs0 with ⟨i, hi⟩
      rcases List.mem_flatten.1 hi with ⟨l, hl, hil⟩
      exact ⟨i, List.mem_flatten.2 ⟨l, List.mem_cons_of_mem _ hl, hil⟩⟩

/-- The tag of an element of the flattened `tagWith` lists recovers its
recording: tag `k + d` belongs to the recording at position `d`. -/
theorem tagWith_flatten_tag :
    ∀ (k : ℕ) (rs : List Recording) (p : ℕ × Segment),
      p ∈ (tagWith k rs).flatten →
      ∃ d, ∃ hd : d < rs.length, p.1 = k + d ∧
        p.2.source_id = (rs.get ⟨d, hd⟩).source_id := by
  intro k rs
  induction rs generalizing k with
  | nil => intro p hp; simp [tagWith] at hp
  | cons r rs ih =>
    intro p hp
    rw [tagWith] at hp
    rcases List.mem_flatten.1 hp with ⟨l, hl, hpl⟩
    rcases List.mem_cons.1 hl with rfl | hl
    · rcases List.mem_map.1 hpl with ⟨s0, _, rfl⟩
      exact ⟨0, Nat.succ_pos _, by simp, rfl⟩
    · rcases ih (k + 1) p (List.mem_flatten.2 ⟨l, hl, hpl⟩) with ⟨d, hd, ht, hs⟩
      refine ⟨d + 1, Nat.succ_lt_succ hd, by omega, ?_⟩
      simpa using hs

/-- Cursor lists built by `tagWith` from recordings with `start`-sorted
segments are `lexRel`-sorted. -/
theorem tagWith_pairwise :
    ∀ (k : ℕ) (rs : List Recording),
      (∀ r ∈ rs, r.segments.Pairwise startLe) →
      ∀ l ∈ tagWith k rs, l.Pairwise lexRel := by
  intro k rs
  induction rs generalizing k with
  | nil => intro _ l hl; simp [tagWith] at hl
  | cons r rs ih =>
    intro hs l hl
    rw [tagWith] at hl
    rcases List.mem_cons.1 hl with rfl | hl
    · refine List.pairwise_map.2 ?_
      refine (hs r (List.mem_cons_self _ _)).imp ?_
      intro a b hab
      rcases lt_or_eq_of_le (add_le_add_right hab r.clock_offset) with h | h
      · exact Or.inl h
      · exact Or.inr ⟨h, le_rfl⟩
    · exact ih (k + 1) (fun q hq => hs q (List.mem_cons_of_mem _ hq)) l hl

/-- Membership in the first-appearance fold. -/
theorem firstAppearance_mem_aux :
    ∀ (l acc : List String) (x : String),
      (x ∈ l.foldl (fun acc x => if x ∈ acc then acc else acc ++ [x]) acc ↔
        x ∈ acc ∨ x ∈ l) := by
  intro l
  induction l with
  | nil => intro acc x; simp
  | cons y l ih =>
    intro acc x
    simp only [List.foldl_cons]
    rw [ih]
    by_cases hy : y ∈ acc
    · rw [if_pos hy]
      constructor
      · rintro (h | h)
        · exact Or.inl h
        · exact Or.inr (List.mem_cons_of_mem _ h)
      · rintro (h | h)
        · exact Or.inl h
        · rcases List.mem_cons.1 h with rfl | h
          · exact Or.inl hy
          · exact Or.inr h
    · rw [if_neg hy]
      simp only [List.mem_append, List.mem_singleton, List.mem_cons]
      tauto

/-- Membership in `firstAppearance`. -/
theorem firstAppearance_mem (l : List String) (x : String) :
    x ∈ firstAppearance l ↔ x ∈ l := by
  rw [firstAppearance, firstAppearance_mem_aux]
  simp

/-- The first-appearance fold preserves `Nodup`. -/
theorem firstAppearance_nodup_aux :
    ∀ (l acc : List String), acc.Nodup →
      (l.foldl (fun acc x => if x ∈ acc then acc else acc ++ [x]) acc).Nodup := by
  intro l
  induction l with
  | nil => intro acc h; simpa using h
  | cons y l ih =>
    intro acc h
    simp only [List.foldl_cons]
    by_cases hy : y ∈ acc
    · rw [if_pos hy]; exact ih acc h
    · rw [if_neg hy]
      refine ih _ ?_
      simp [List.nodup_append, h, hy]

/-- `firstAppearance` has no duplicates. -/
theorem firstAppearance_nodup (l : List String) : (firstAppearance l).Nodup :=
  firstAppearance_nodup_aux l [] List.Pairwise.nil

/-- Unfolding `firstAppearance` over a final element. -/
theorem firstAppearance_append_singleton (l : List String) (x : String) :
    firstAppearance (l ++ [x]) =
      if x ∈ firstAppearance l then firstAppearance l
      else firstAppearance l ++ [x] := by
  simp [firstAppearance, List.foldl_append]

/-- `firstAppearance l` lists values in order of their first occurrence in
`l`: earlier entries have strictly smaller first-occurrence index. -/
theorem firstAppearance_ordered (l : List String) :
    (firstAppearance l).Pairwise (fun a b => l.indexOf a < l.indexOf b) := by
  induction l using List.reverseRecOn with
  | nil => simp [firstAppearance]
  | append_singleton l x ih =>
    rw [firstAppearance_append_singleton]
    by_cases hx : x ∈ firstAppearance l
    · rw [if_pos hx]
      refine ih.imp_of_mem ?_
      intro a b ha hb hab
      rw [List.indexOf_append_of_mem ((firstAppearance_mem l a).1 ha),
          List.indexOf_append_of_mem ((firstAppearance_mem l b).1 hb)]
      exact hab
    · rw [if_neg hx]
      have hx' : x ∉ l := fun h => hx ((firstAppearance_mem l x).2 h)
      refine List.pairwise_append.2 ⟨?_, List.pairwise_singleton _ _, ?_⟩
      · refine ih.imp_of_mem ?_
        intro a b ha hb hab
        rw [List.indexOf_append_of_mem ((firstAppearance_mem l a).1 ha),
            List.indexOf_append_of_mem ((firstAppearance_mem l b).1 hb)]
        exact hab
      · intro a ha b hb
        rcases List.mem_singleton.1 hb with rfl
        have ha' : a ∈ l := (firstAppearance_mem l a).1 ha
        rw [List.indexOf_append_of_mem ha', List.indexOf_append_of_not_mem hx']
        have h1 : l.indexOf a < l.length := List.indexOf_lt_length.2 ha'
        simp only [List.indexOf_cons_self]
        omega

/-- Bounds and attainment for a left fold of `max` over segment ends. -/
theorem foldl_max_spec (f : Segment → ℚ) :
    ∀ (t : List Segment) (a : ℚ),
      a ≤ t.foldl (fun m x => max m (f x)) a ∧
      (∀ x ∈ t, f x ≤ t.foldl (fun m x => max m (f x)) a) ∧
      (t.foldl (fun m x => max m (f x)) a = a ∨
        ∃ x ∈ t, t.foldl (fun m x => max m (f x)) a = f x) := by
  intro t
  induction t with
  | nil => intro a; exact ⟨le_rfl, by simp, Or.inl rfl⟩
  | cons y t ih =>
    intro a
    simp only [List.foldl_cons]
    rcases ih (max a (f y)) with ⟨h1, h2, h3⟩
    refine ⟨le_trans (le_max_left _ _) h1, ?_, ?_⟩
    · intro x hx
      rcases List.mem_cons.1 hx with rfl | hx
      · exact le_trans (le_max_right _ _) h1
      · exact h2 x hx
    · rcases h3 with h3 | ⟨x, hx, h3⟩
      · rcases max_choice a (f y) with hm | hm
        · exact Or.inl (h3.trans hm)
        · exact Or.inr ⟨y, List.mem_cons_self _ _, h3.trans hm⟩
      · exact Or.inr ⟨x, List.mem_cons_of_mem _ hx, h3⟩

/-- Bounds and attainment for a left fold of `min` over segment starts. -/
theorem foldl_min_spec (f : Segment → ℚ) :
    ∀ (t : List Segment) (a : ℚ),
      t.foldl (fun m x => min m (f x)) a ≤ a ∧
      (∀ x ∈ t, t.foldl (fun m x => min m (f x)) a ≤ f x) ∧
      (t.foldl (fun m x => min m (f x)) a = a ∨
        ∃ x ∈ t, t.foldl (fun m x => min m (f x)) a = f x) := by
  intro t
  induction t with
  | nil => intro a; exact ⟨le_rfl, by simp, Or.inl rfl⟩
  | cons y t ih =>
    intro a
    simp only [List.foldl_cons]
    rcases ih (min a (f y)) with ⟨h1, h2, h3⟩
    refine ⟨le_trans h1 (min_le_left _ _), ?_, ?_⟩
    · intro x hx
      rcases List.mem_cons.1 hx with rfl | hx
      · exact le_trans h1 (min_le_right _ _)
      · exact h2 x hx
    · rcases h3 with h3 | ⟨x, hx, h3⟩
      · rcases min_choice a (f y) with hm | hm
        · exact Or.inl (h3.trans hm)
        · exact Or.inr ⟨y, List.mem_cons_self _ _, h3.trans hm⟩
      · exact Or.inr ⟨x, List.mem_cons_of_mem _ hx, h3⟩

/-- `totalDuration` is 0 on the empty list, and otherwise is the difference
of an attained maximal end and an attained minimal start. -/
theorem totalDuration_spec (segs : List Segment) :
    (segs = [] → totalDuration segs = 0) ∧
    (segs ≠ [] → ∃ a ∈ segs, ∃ b ∈ segs,
      totalDuration segs = a.«end» - b.start ∧
      ∀ s ∈ segs, s.«end» ≤ a.«end» ∧ b.start ≤ s.start) := by
  cases segs with
  | nil => exact ⟨fun _ => rfl, fun h => absurd rfl h⟩
  | cons s t =>
    refine ⟨fun h => by simp at h, fun _ => ?_⟩
    rcases foldl_max_spec (fun q => q.«end») t s.«end» with ⟨hM1, hM2, hM3⟩
    rcases foldl_min_spec (fun q => q.start) t s.start with ⟨hm1, hm2, hm3⟩
    have hM : ∃ a, a ∈ s :: t ∧
        t.foldl (fun m x => max m x.«end») s.«end» = a.«end» := by
      rcases hM3 with h | ⟨x, hx, h⟩
      · exact ⟨s, List.mem_cons_self _ _, h⟩
      · exact ⟨x, List.mem_cons_of_mem _ hx, h⟩
    have hm : ∃ b, b ∈ s :: t ∧
        t.foldl (fun m x => min m x.start) s.start = b.start := by
      rcases hm3 with h | ⟨x, hx, h⟩
      · exact ⟨s, List.mem_cons_self _ _, h⟩
      · exact ⟨x, List.mem_cons_of_mem _ hx, h⟩
    rcases hM with ⟨a, ha, hMa⟩
    rcases hm with ⟨b, hb, hmb⟩
    refine ⟨a, ha, b, hb, ?_, ?_⟩
    · rw [totalDuration, hMa, hmb]
    · intro q hq
      constructor
      · rcases List.mem_cons.1 hq with rfl | hq
        · exact hMa ▸ hM1
        · exact hMa ▸ hM2 q hq
      · rcases List.mem_cons.1 hq with rfl | hq
        · exact hmb ▸ hm1
        · exact hmb ▸ hm2 q hq

/-- `chooseKept` keeps one of the two segments' starts. -/
theorem chooseKept_start (last c : Segment) :
    (chooseKept last c).start = last.start ∨ (chooseKept last c).start = c.start := by
  unfold chooseKept
  rcases last.confidence with _ | a <;> rcases c.confidence with _ | b <;>
    dsimp only [] <;> split_ifs <;> simp

/-- `chooseKept` keeps one of the two segments' texts. -/
theorem chooseKept_text (last c : Segment) :
    (chooseKept last c).text = last.text ∨ (chooseKept last c).text = c.text := by
  unfold chooseKept
  rcases last.confidence with _ | a <;> rcases c.confidence with _ | b <;>
    dsimp only [] <;> split_ifs <;> simp

/-- Invariant of the Deduplicator pass: if the accumulator is reverse-sorted,
everything in it starts no later than anything still to come, and the
remaining input is sorted, then the result is sorted by `start` and no longer
than accumulator plus input. -/
theorem dedupLoop_invariant (p : DedupParams) :
    ∀ (rest acc : List Segment),
      acc.Pairwise (fun a b => b.start ≤ a.start) →
      (∀ a ∈ acc, ∀ x ∈ rest, a.start ≤ x.start) →
      rest.Pairwise startLe →
      (dedupLoop p acc rest).Pairwise startLe ∧
        (dedupLoop p acc rest).length ≤ acc.length + rest.length := by
  intro rest
  induction rest with
  | nil =>
    intro acc hacc _ _
    rw [dedupLoop]
    exact ⟨List.pairwise_reverse.2 hacc, by simp⟩
  | cons c rest ih =>
    intro acc hacc hcross hrest
    have hrest' : rest.Pairwise startLe := (List.pairwise_cons.1 hrest).2
    have hcfirst : ∀ x ∈ rest, startLe c x := (List.pairwise_cons.1 hrest).1
    cases acc with
    | nil =>
      simp only [dedupLoop]
      by_cases hm : malformedSeg c
      · rw [if_pos hm]
        rcases ih [] (List.Pairwise.nil) (by simp) hrest' with ⟨h1, h2⟩
        refine ⟨h1, ?_⟩
        simp only [List.length_nil, List.length_cons] at h2 ⊢
        omega
      · rw [if_neg hm]
        have hcross' : ∀ a ∈ [c], ∀ x ∈ rest, a.start ≤ x.start := by
          intro a ha x hx
          rcases List.mem_singleton.1 ha with rfl
          exact hcfirst x hx
        rcases ih [c] (List.pairwise_singleton _ _) hcross' hrest' with ⟨h1, h2⟩
        refine ⟨h1, ?_⟩
        simp only [List.length_nil, List.length_cons, List.length_singleton] at h2 ⊢
        omega
    | cons last accT =>
      have hlast_c : last.start ≤ c.start :=
        hcross last (List.mem_cons_self _ _) c (List.mem_cons_self _ _)
      simp only [dedupLoop]
      by_cases hm : malformedSeg c
      · rw [if_pos hm]
        have hcross' : ∀ a ∈ last :: accT, ∀ x ∈ rest, a.start ≤ x.start :=
          fun a ha x hx => hcross a ha x (List.mem_cons_of_mem _ hx)
        rcases ih (last :: accT) hacc hcross' hrest' with ⟨h1, h2⟩
        refine ⟨h1, ?_⟩
        simp only [List.length_cons] at h2 ⊢
        omega
      · rw [if_neg hm]
        by_cases hd : isDup p last c
        · rw [if_pos hd]
          have hkstart : (chooseKept last c).start = last.start ∨
              (chooseKept last c).start = c.start := chooseKept_start last c
          have hk_ge : last.start ≤ (chooseKept last c).start := by
            rcases hkstart with h | h
            · rw [h]
            · rw [h]; exact hlast_c
          have hacc' : ((chooseKept last c) :: accT).Pairwise
              (fun a b => b.start ≤ a.start) := by
            refine List.pairwise_cons.2 ⟨?_, (List.pairwise_cons.1 hacc).2⟩
            intro z hz
            exact le_trans ((List.pairwise_cons.1 hacc).1 z hz) hk_ge
          have hcross' : ∀ a ∈ (chooseKept last c) :: accT, ∀ x ∈ rest,
              a.start ≤ x.start := by
            intro a ha x hx
            rcases List.mem_cons.1 ha with rfl | ha
            · rcases hkstart with h | h
              · rw [h]
                exact hcross last (List.mem_cons_self _ _) x (List.mem_cons_of_mem _ hx)
              · rw [h]
                exact hcfirst x hx
            · exact hcross a (List.mem_cons_of_mem _ ha) x (List.mem_cons_of_mem _ hx)
          rcases ih ((chooseKept last c) :: accT) hacc' hcross' hrest' with ⟨h1, h2⟩
          refine ⟨h1, ?_⟩
          simp only [List.length_cons] at h2 ⊢
          omega
        · rw [if_neg hd]
          have hacc' : (c :: last :: accT).Pairwise (fun a b => b.start ≤ a.start) := by
            refine List.pairwise_cons.2 ⟨?_, hacc⟩
            intro z hz
            exact hcross z hz c (List.mem_cons_self _ _)
          have hcross' : ∀ a ∈ c :: last :: accT, ∀ x ∈ rest, a.start ≤ x.start := by
            intro a ha x hx
            rcases List.mem_cons.1 ha with rfl | ha
            · exact hcfirst x hx
            · exact hcross a ha x (List.mem_cons_of_mem _ hx)
          rcases ih (c :: last :: accT) hacc' hcross' hrest' with ⟨h1, h2⟩
          refine ⟨h1, ?_⟩
          simp only [List.length_cons] at h2 ⊢
          omega

/-- Every text in the Deduplicator pass's output originates in the
accumulator or in the remaining input. -/
theorem dedupLoop_texts (p : DedupParams) :
    ∀ (rest acc : List Segment) (s : Segment), s ∈ dedupLoop p acc rest →
      (∃ a ∈ acc, a.text = s.text) ∨ (∃ x ∈ rest, x.text = s.text) := by
  intro rest
  induction rest with
  | nil =>
    intro acc s hs
    rw [dedupLoop] at hs
    exact Or.inl ⟨s, List.mem_reverse.1 hs, rfl⟩
  | cons c rest ih =>
    intro acc s hs
    cases acc with
    | nil =>
      simp only [dedupLoop] at hs
      by_cases hm : malformedSeg c
      · rw [if_pos hm] at hs
        rcases ih [] s hs with ⟨a, ha, _⟩ | ⟨x, hx, ht⟩
        · simp at ha
        · exact Or.inr ⟨x, List.mem_cons_of_mem _ hx, ht⟩
      · rw [if_neg hm] at hs
        rcases ih [c] s hs with ⟨a, ha, ht⟩ | ⟨x, hx, ht⟩
        · rcases List.mem_singleton.1 ha with rfl
          exact Or.inr ⟨a, List.mem_cons_self _ _, ht⟩
        · exact Or.inr ⟨x, List.mem_cons_of_mem _ hx, ht⟩
    | cons last accT =>
      simp only [dedupLoop] at hs
      by_cases hm : malformedSeg c
      · rw [if_pos hm] at hs
        rcases ih (last :: accT) s hs with ⟨a, ha, ht⟩ | ⟨x, hx, ht⟩
        · exact Or.inl ⟨a, ha, ht⟩
        · exact Or.inr ⟨x, List.mem_cons_of_mem _ hx, ht⟩
      · rw [if_neg hm] at hs
        by_cases hd : isDup p last c
        · rw [if_pos hd] at hs
          rcases ih ((chooseKept last c) :: accT) s hs with ⟨a, ha, ht⟩ | ⟨x, hx, ht⟩
          · rcases List.mem_cons.1 ha with rfl | ha
            · rcases chooseKept_text last c with h | h
              · refine Or.inl ⟨last, List.mem_cons_self _ _, ?_⟩
                rw [← h]; exact ht
              · refine Or.inr ⟨c, List.mem_cons_self _ _, ?_⟩
                rw [← h]; exact ht
            · exact Or.inl ⟨a, List.mem_cons_of_mem _ ha, ht⟩
          · exact Or.inr ⟨x, List.mem_cons_of_mem _ hx, ht⟩
        · rw [if_neg hd] at hs
          rcases ih (c :: last :: accT) s hs with ⟨a, ha, ht⟩ | ⟨x, hx, ht⟩
          · rcases List.mem_cons.1 ha with rfl | ha
            · exact Or.inr ⟨a, List.mem_cons_self _ _, ht⟩
            · exact Or.inl ⟨a, ha, ht⟩
          · exact Or.inr ⟨x, List.mem_cons_of_mem _ hx, ht⟩

/-- C6: on a `start`-sorted input list the Deduplicator succeeds and returns
a new list that is still non-decreasing in `start` and no longer than the
input. -/
theorem dedup_preserves_order_and_length (p : DedupParams) (segs : List Segment)
    (h : segs.Pairwise startLe) :
    ∃ out, deduplicate p segs = .ok out ∧ out.Pairwise startLe ∧
      out.length ≤ segs.length := by
  refine ⟨dedupLoop p [] segs, ?_, ?_, ?_⟩
  · rw [deduplicate, if_pos h]
  · exact (dedupLoop_invariant p segs [] List.Pairwise.nil (by simp) h).1
  · simpa using (dedupLoop_invariant p segs [] List.Pairwise.nil (by simp) h).2

unseal Rat.add Rat.sub Rat.mul Rat.inv in
/-- C6 witness: the §8 scenario input is sorted, and the Deduplicator's
output on it is sorted and no longer than the input. -/
theorem dedup_preserves_order_and_length_witness :
    exampleSegments.Pairwise startLe ∧
      ∃ out, deduplicate defaultDedupParams exampleSegments = .ok out ∧
        out.Pairwise startLe ∧ out.length ≤ exampleSegments.length :=
  ⟨by decide, dedup_preserves_order_and_length defaultDedupParams exampleSegments (by decide)⟩

/-- The Timeline Merger on a nonempty recording list returns the merged
record built from the ordered, tagged, k-way-merged segments. -/
theorem mergeTranscriptions_ok (pri : Option (List String)) (recs : List Recording)
    (hne : recs ≠ []) :
    mergeTranscriptions pri recs = .ok
      { segments := (kMerge (tagWith 0 (orderRecs pri recs))).map Prod.snd
        usernames := firstAppearance
          (((kMerge (tagWith 0 (orderRecs pri recs))).map Prod.snd).map Segment.source_id)
        languages := firstAppearance ((orderRecs pri recs).map Recording.language)
        total_duration :=
          totalDuration ((kMerge (tagWith 0 (orderRecs pri recs))).map Prod.snd) } := by
  cases recs with
  | nil => exact absurd rfl hne
  | cons r rs => rfl

/-- Every merged segment is the stamped, offset-adjusted copy of a segment
of one of the input recordings. -/
theorem merged_segments_origin (pri : Option (List String)) (recs : List Recording)
    (s : Segment) (hs : s ∈ (kMerge (tagWith 0 (orderRecs pri recs))).map Prod.snd) :
    ∃ r ∈ recs, ∃ s0 ∈ r.segments, s = absStamp r s0 := by
  rcases List.mem_map.1 hs with ⟨p, hp, rfl⟩
  have hp' : p ∈ (tagWith 0 (orderRecs pri recs)).flatten :=
    (kMerge_perm _).mem_iff.1 hp
  rcases tagWith_flatten_origin 0 _ p hp' with ⟨q, hq, s0, hs0, he⟩
  exact ⟨q, (List.perm_insertionSort (recRel pri) recs).mem_iff.1 hq, s0, hs0, he⟩

/-- Every input segment survives, stamped, into the merged segment list. -/
theorem merged_segments_surj (pri : Option (List String)) (recs : List Recording)
    (r : Recording) (s0 : Segment) (hr : r ∈ recs) (hs0 : s0 ∈ r.segments) :
    absStamp r s0 ∈ (kMerge (tagWith 0 (orderRecs pri recs))).map Prod.snd := by
  have hr' : r ∈ orderRecs pri recs :=
    (List.perm_insertionSort (recRel pri) recs).mem_iff.2 hr
  rcases tagWith_flatten_surj 0 (orderRecs pri recs) r s0 hr' hs0 with ⟨i, hi⟩
  exact List.mem_map.2 ⟨(i, absStamp r s0), (kMerge_perm _).mem_iff.2 hi, rfl⟩

/-- C2: for recordings whose segment lists are sorted by `start`, the merged
transcript's segments are sorted by absolute start, and at equal absolute
starts segments appear in the deterministic §4.2 priority order of their
source recordings (caller-provided priority list, else alphabetical source
id); the merge itself is a pure function of its inputs, so repeated runs are
identical. -/
theorem merge_sorted_and_tiebreak (pri : Option (List String)) (recs : List Recording)
    (hs : ∀ r ∈ recs, r.segments.Pairwise startLe) (hne : recs ≠ []) :
    ∃ mt, mergeTranscriptions pri recs = .ok mt ∧
      mt.segments.Pairwise startLe ∧
      mt.segments.Pairwise (fun a b => a.start = b.start →
        priorityLe pri a.source_id b.source_id) := by
  have hs' : ∀ r ∈ orderRecs pri recs, r.segments.Pairwise startLe :=
    fun r hr => hs r ((List.perm_insertionSort (recRel pri) recs).mem_iff.1 hr)
  have hpw : (kMerge (tagWith 0 (orderRecs pri recs))).Pairwise lexRel :=
    kMerge_pairwise _ (tagWith_pairwise 0 _ hs')
  have hsorted : ((kMerge (tagWith 0 (orderRecs pri recs))).map Prod.snd).Pairwise
      startLe := by
    refine List.pairwise_map.2 (hpw.imp ?_)
    intro a b hab
    rcases hab with h | ⟨h, _⟩
    · exact le_of_lt h
    · exact le_of_eq h
  have hsortedRecs : (orderRecs pri recs).Sorted (recRel pri) :=
    List.sorted_insertionSort (recRel pri) recs
  have htie : ((kMerge (tagWith 0 (orderRecs pri recs))).map Prod.snd).Pairwise
      (fun a b => a.start = b.start → priorityLe pri a.source_id b.source_id) := by
    refine List.pairwise_map.2 ?_
    refine hpw.imp_of_mem ?_
    intro a b ha hb hab heq
    rcases tagWith_flatten_tag 0 _ a ((kMerge_perm _).mem_iff.1 ha) with
      ⟨da, hda, hta, hsa⟩
    rcases tagWith_flatten_tag 0 _ b ((kMerge_perm _).mem_iff.1 hb) with
      ⟨db, hdb, htb, hsb⟩
    have hij : a.1 ≤ b.1 := by
      rcases hab with h | ⟨_, h⟩
      · exact absurd heq (ne_of_lt h)
      · exact h
    have hd : da ≤ db := by omega
    rw [hsa, hsb]
    rcases lt_or_eq_of_le hd with hlt | heqd
    · exact hsortedRecs.rel_get_of_lt (Fin.mk_lt_mk.2 hlt)
    · subst heqd
      exact priorityLe_refl pri _
  exact ⟨_, mergeTranscriptions_ok pri recs hne, hsorted, htie⟩

/-- A recording used in the concrete merger scenarios: Alice, one segment at
absolute start 0. -/
def recAlice : Recording :=
  { source_id := "alice", language := "fr", clock_offset := 0,
    segments := [{ start := 0, «end» := 3, text := "i cast fireball",
                   source_id := "alice", confidence := none }] }

/-- A recording used in the concrete merger scenarios: Bob, one segment at
the same absolute start 0. -/
def recBob : Recording :=
  { source_id := "bob", language := "en", clock_offset := 0,
    segments := [{ start := 0, «end» := 4, text := "i dodge",
                   source_id := "bob", confidence := none }] }

/-- C2 witness: two sorted single-segment recordings with equal absolute
start merge into a sorted transcript whose ties follow the priority list. -/
theorem merge_sorted_and_tiebreak_witness :
    (∀ r ∈ [recAlice, recBob], r.segments.Pairwise startLe) ∧
      ∃ mt, mergeTranscriptions (some ["alice", "bob"]) [recAlice, recBob] = .ok mt ∧
        mt.segments.Pairwise startLe ∧
        mt.segments.Pairwise (fun a b => a.start = b.start →
          priorityLe (some ["alice", "bob"]) a.source_id b.source_id) :=
  ⟨by decide, merge_sorted_and_tiebreak (some ["alice", "bob"]) [recAlice, recBob]
    (by decide) (by decide)⟩

/-- C3: the merged transcript's usernames are exactly the source ids of
recordings contributing at least one segment, without duplicates and ordered
by first appearance in the merged sequence, and `total_duration` is the
difference between the attained maximum end and the attained minimum start
over the merged segments (0 when that list is empty). -/
theorem merged_info_correct (pri : Option (List String)) (recs : List Recording)
    (hne : recs ≠ []) :
    ∃ mt, mergeTranscriptions pri recs = .ok mt ∧
      (∀ x, x ∈ mt.usernames ↔ ∃ r ∈ recs, r.source_id = x ∧ r.segments ≠ []) ∧
      mt.usernames.Nodup ∧
      mt.usernames.Pairwise (fun a b =>
        (mt.segments.map Segment.source_id).indexOf a <
          (mt.segments.map Segment.source_id).indexOf b) ∧
      (mt.segments = [] → mt.total_duration = 0) ∧
      (mt.segments ≠ [] → ∃ a ∈ mt.segments, ∃ b ∈ mt.segments,
        mt.total_duration = a.«end» - b.start ∧
        ∀ s ∈ mt.segments, s.«end» ≤ a.«end» ∧ b.start ≤ s.start) := by
  refine ⟨_, mergeTranscriptions_ok pri recs hne, ?_, ?_, ?_, ?_, ?_⟩
  · intro x
    dsimp only
    rw [firstAppearance_mem]
    constructor
    · intro hx
      rcases List.mem_map.1 hx with ⟨s, hsS, rfl⟩
      rcases merged_segments_origin pri recs s hsS with ⟨r, hr, s0, hs0, he⟩
      refine ⟨r, hr, ?_, ?_⟩
      · rw [he]; rfl
      · intro hnil
        rw [hnil] at hs0
        simp at hs0
    · rintro ⟨r, hr, rfl, hrne⟩
      rcases List.exists_mem_of_ne_nil _ hrne with ⟨s0, hs0⟩
      exact List.mem_map.2 ⟨absStamp r s0, merged_segments_surj pri recs r s0 hr hs0, rfl⟩
  · exact firstAppearance_nodup _
  · exact firstAppearance_ordered _
  · exact (totalDuration_spec _).1
  · exact (totalDuration_spec _).2

/-- C3 witness: the Alice/Bob merge has the claimed username and duration
structure. -/
theorem merged_info_correct_witness :
    ([recAlice, recBob] : List Recording) ≠ [] ∧
      ∃ mt, mergeTranscriptions none [recAlice, recBob] = .ok mt ∧
        (∀ x, x ∈ mt.usernames ↔
          ∃ r ∈ [recAlice, recBob], r.source_id = x ∧ r.segments ≠ []) ∧
        mt.usernames.Nodup ∧
        mt.usernames.Pairwise (fun a b =>
          (mt.segments.map Segment.source_id).indexOf a <
            (mt.segments.map Segment.source_id).indexOf b) ∧
        (mt.segments = [] → mt.total_duration = 0) ∧
        (mt.segments ≠ [] → ∃ a ∈ mt.segments, ∃ b ∈ mt.segments,
          mt.total_duration = a.«end» - b.start ∧
          ∀ s ∈ mt.segments, s.«end» ≤ a.«end» ∧ b.start ≤ s.start) :=
  ⟨by decide, merged_info_correct none [recAlice, recBob] (by decide)⟩

/-- C4: the Deduplicator fails with `ErrInputUnsorted` exactly on unsorted
input; the Timeline Merger fails with `ErrEmptyInput` exactly on zero
recordings; and on any nonempty input the merge succeeds with every
recording's declared language — including recordings contributing no
segments — present in the languages metadata. -/
theorem error_semantics :
    (∀ (p : DedupParams) (segs : List Segment),
        deduplicate p segs = .error .ErrInputUnsorted ↔ ¬ segs.Pairwise startLe) ∧
    (∀ (pri : Option (List String)) (recs : List Recording),
        mergeTranscriptions pri recs = .error .ErrEmptyInput ↔ recs = []) ∧
    (∀ (pri : Option (List String)) (recs : List Recording), recs ≠ [] →
        ∃ mt, mergeTranscriptions pri recs = .ok mt ∧
          ∀ r ∈ recs, r.language ∈ mt.languages) := by
  refine ⟨?_, ?_, ?_⟩
  · intro p segs
    by_cases h : segs.Pairwise startLe
    · rw [deduplicate, if_pos h]
      simp [h]
    · rw [deduplicate, if_neg h]
      simp [h]
  · intro pri recs
    cases recs with
    | nil => simp [mergeTranscriptions]
    | cons r rs => simp [mergeTranscriptions]
  · intro pri recs hne
    refine ⟨_, mergeTranscriptions_ok pri recs hne, ?_⟩
    intro r hr
    dsimp only
    rw [firstAppearance_mem]
    exact List.mem_map.2 ⟨r, (List.perm_insertionSort (recRel pri) recs).mem_iff.2 hr, rfl⟩

/-- C4 witness: a nonempty recording list (one of the recordings having no
segments at all) merges successfully and both languages appear in the
metadata. -/
theorem error_semantics_witness :
    ([recAlice, { source_id := "carol", language := "de", clock_offset := 0,
                  segments := [] }] : List Recording) ≠ [] ∧
      ∃ mt, mergeTranscriptions none
          [recAlice, { source_id := "carol", language := "de", clock_offset := 0,
                       segments := [] }] = .ok mt ∧
        ∀ r ∈ [recAlice, ({ source_id := "carol", language := "de", clock_offset := 0,
                            segments := [] } : Recording)], r.language ∈ mt.languages :=
  ⟨by decide, error_semantics.2.2 none _ (by decide)⟩

/-- Per-recording deduplication succeeds on sorted recordings, preserves the
recording count, and every surviving segment's text originates in the same
recording's input segments. -/
theorem dedupRecordings_ok (p : DedupParams) :
    ∀ (recs : List Recording), (∀ r ∈ recs, r.segments.Pairwise startLe) →
      ∃ recs2, dedupRecordings p recs = .ok recs2 ∧
        recs2.length = recs.length ∧
        ∀ r2 ∈ recs2, ∃ r ∈ recs, ∀ s ∈ r2.segments, ∃ s0 ∈ r.segments,
          s0.text = s.text := by
  intro recs
  induction recs with
  | nil => intro _; exact ⟨[], rfl, rfl, by simp⟩
  | cons r rs ih =>
    intro hs
    have hr : r.segments.Pairwise startLe := hs r (List.mem_cons_self _ _)
    have hout : deduplicate p r.segments = .ok (dedupLoop p [] r.segments) := by
      rw [deduplicate, if_pos hr]
    rcases ih (fun q hq => hs q (List.mem_cons_of_mem _ hq)) with ⟨recs2, h2, hlen, horig⟩
    refine ⟨{ r with segments := dedupLoop p [] r.segments } :: recs2, ?_, ?_, ?_⟩
    · simp only [dedupRecordings, hout, h2]
    · simp [hlen]
    · intro r2 hr2
      rcases List.mem_cons.1 hr2 with rfl | hr2
      · refine ⟨r, List.mem_cons_self _ _, ?_⟩
        intro s hsout
        rcases dedupLoop_texts p r.segments [] s hsout with ⟨a, ha, _⟩ | ⟨x, hx, ht⟩
        · simp at ha
        · exact ⟨x, hx, ht⟩
      · rcases horig r2 hr2 with ⟨q, hq, hforall⟩
        exact ⟨q, List.mem_cons_of_mem _ hq, hforall⟩

/-- C8: the full Deduplicator-then-Merger pipeline never fabricates text —
every text in the merged output already occurs in some input recording's
segments. -/
theorem merged_text_no_fabrication (p : DedupParams) (pri : Option (List String))
    (recs : List Recording) (hs : ∀ r ∈ recs, r.segments.Pairwise startLe)
    (hne : recs ≠ []) :
    ∃ mt, pipelineRun p pri recs = .ok mt ∧
      ∀ s ∈ mt.segments, ∃ r ∈ recs, ∃ s0 ∈ r.segments, s0.text = s.text := by
  rcases dedupRecordings_ok p recs hs with ⟨recs2, h2, hlen, horig⟩
  have hne2 : recs2 ≠ [] := by
    intro h
    rw [h] at hlen
    cases recs with
    | nil => exact hne rfl
    | cons r rs => simp at hlen
  refine ⟨{ segments := (kMerge (tagWith 0 (orderRecs pri recs2))).map Prod.snd
            usernames := firstAppearance
              (((kMerge (tagWith 0 (orderRecs pri recs2))).map Prod.snd).map
                Segment.source_id)
            languages := firstAppearance ((orderRecs pri recs2).map Recording.language)
            total_duration :=
              totalDuration ((kMerge (tagWith 0 (orderRecs pri recs2))).map Prod.snd) },
    ?_, ?_⟩
  · simp only [pipelineRun, h2]
    exact mergeTranscriptions_ok pri recs2 hne2
  · dsimp only
    intro s hsS
    rcases merged_segments_origin pri recs2 s hsS with ⟨r2, hr2, s1, hs1, he⟩
    rcases horig r2 hr2 with ⟨r, hr, hforall⟩
    rcases hforall s1 hs1 with ⟨s0, hs0, ht⟩
    refine ⟨r, hr, s0, hs0, ?_⟩
    rw [he]
    exact ht

/-- C8 witness: the Alice/Bob pipeline run produces only texts present in
the inputs. -/
theorem merged_text_no_fabrication_witness :
    (∀ r ∈ [recAlice, recBob], r.segments.Pairwise startLe) ∧
      ∃ mt, pipelineRun defaultDedupParams none [recAlice, recBob] = .ok mt ∧
        ∀ s ∈ mt.segments, ∃ r ∈ [recAlice, recBob], ∃ s0 ∈ r.segments,
          s0.text = s.text :=
  ⟨by decide, merged_text_no_fabrication defaultDedupParams none [recAlice, recBob]
    (by decide) (by decide)⟩

/-- C5: for every config, log level and log file, constructing any of the
three agent subclasses raises `TypeError`: each `super().__init__` call
passes four positional arguments where `Agent.__init__` accepts at most
two, so no constructed agent (and hence none of the wrapped engine entry
points reachable only through one) ever exists. -/
theorem agent_subclass_init_type_error (config : PyVal) (logLevel : String)
    (logFile : PyVal) :
    constructAITranscriptionAgent config logLevel logFile = .error .typeError ∧
    constructContentProcessingAgent config logLevel logFile = .error .typeError ∧
    constructAIAnalysisAgent config logLevel logFile = .error .typeError :=
  ⟨rfl, rfl, rfl⟩

/-- C5 witness: the three constructors raise `TypeError` at a concrete
argument triple. -/
theorem agent_subclass_init_type_error_witness :
    constructAITranscriptionAgent PyVal.pynone "INFO" PyVal.pynone = .error .typeError ∧
    constructContentProcessingAgent PyVal.pynone "INFO" PyVal.pynone = .error .typeError ∧
    constructAIAnalysisAgent PyVal.pynone "INFO" PyVal.pynone = .error .typeError :=
  agent_subclass_init_type_error PyVal.pynone "INFO" PyVal.pynone

/-- C9: in `AITranscriptionAgent.process` the "full" operation runs
transcription, then cleaning (deduplication), then merging, in that order;
and in no call does the merging step run before the cleaning step when both
run. -/
theorem process_clean_before_merge :
    processOps "full" = ["transcription", "cleaning", "merging"] ∧
    ∀ op : String, "cleaning" ∈ processOps op → "merging" ∈ processOps op →
      (processOps op).indexOf "cleaning" < (processOps op).indexOf "merging" := by
  constructor
  · rfl
  · intro op h1 h2
    by_cases hf : op = "full"
    · subst hf; decide
    · exfalso
      by_cases hc : op = "clean"
      · subst hc; exact absurd h2 (by decide)
      · by_cases ht : op = "transcribe"
        · subst ht; exact absurd h1 (by decide)
        · by_cases hm : op = "merge"
          · subst hm; exact absurd h1 (by decide)
          · have hempty : processOps op = [] := by
              simp [processOps, hf, hc, ht, hm]
            rw [hempty] at h1
            exact absurd h1 (List.not_mem_nil _)

/-- C9 witness: in the "full" operation both steps run and cleaning precedes
merging. -/
theorem process_clean_before_merge_witness :
    "cleaning" ∈ processOps "full" ∧ "merging" ∈ processOps "full" ∧
      (processOps "full").indexOf "cleaning" < (processOps "full").indexOf "merging" :=
  ⟨by decide, by decide, process_clean_before_merge.2 "full" (by decide) (by decide)⟩

/-- Invariant of the `_merge_consecutive_segments` loop: with a
reverse-sorted accumulator whose entries start no later than any remaining
segment, and sorted remaining input, the result is sorted by `start` and no
longer than accumulator plus input. -/
theorem mergeConsecutiveLoop_invariant :
    ∀ (rest acc : List TranscriptSeg),
      acc.Pairwise (fun a b => b.start ≤ a.start) →
      (∀ a ∈ acc, ∀ x ∈ rest, a.start ≤ x.start) →
      rest.Pairwise tsStartLe →
      (mergeConsecutiveLoop acc rest).Pairwise tsStartLe ∧
        (mergeConsecutiveLoop acc rest).length ≤ acc.length + rest.length := by
  intro rest
  induction rest with
  | nil =>
    intro acc hacc _ _
    rw [mergeConsecutiveLoop]
    exact ⟨List.pairwise_reverse.2 hacc, by simp⟩
  | cons c rest ih =>
    intro acc hacc hcross hrest
    have hrest' : rest.Pairwise tsStartLe := (List.pairwise_cons.1 hrest).2
    have hcfirst : ∀ x ∈ rest, tsStartLe c x := (List.pairwise_cons.1 hrest).1
    cases acc with
    | nil =>
      simp only [mergeConsecutiveLoop]
      have hcross' : ∀ a ∈ [c], ∀ x ∈ rest, a.start ≤ x.start := by
        intro a ha x hx
        rcases List.mem_singleton.1 ha with rfl
        exact hcfirst x hx
      rcases ih [c] (List.pairwise_singleton _ _) hcross' hrest' with ⟨h1, h2⟩
      refine ⟨h1, ?_⟩
      simp only [List.length_nil, List.length_cons, List.length_singleton] at h2 ⊢
      omega
    | cons last accT =>
      simp only [mergeConsecutiveLoop]
      by_cases hd : c.username = last.username ∧ c.start - last.«end» ≤ 2
      · rw [if_pos hd]
        set m : TranscriptSeg :=
          { last with text := last.text ++ " " ++ c.text, «end» := c.«end» } with hm
        have hmstart : m.start = last.start := rfl
        have hacc' : (m :: accT).Pairwise (fun a b => b.start ≤ a.start) := by
          refine List.pairwise_cons.2 ⟨?_, (List.pairwise_cons.1 hacc).2⟩
          intro z hz
          rw [hmstart]
          exact (List.pairwise_cons.1 hacc).1 z hz
        have hcross' : ∀ a ∈ m :: accT, ∀ x ∈ rest, a.start ≤ x.start := by
          intro a ha x hx
          rcases List.mem_cons.1 ha with rfl | ha
          · rw [hmstart]
            exact hcross last (List.mem_cons_self _ _) x (List.mem_cons_of_mem _ hx)
          · exact hcross a (List.mem_cons_of_mem _ ha) x (List.mem_cons_of_mem _ hx)
        rcases ih _ hacc' hcross' hrest' with ⟨h1, h2⟩
        refine ⟨h1, ?_⟩
        simp only [List.length_cons] at h2 ⊢
        omega
      · rw [if_neg hd]
        have hacc' : (c :: last :: accT).Pairwise (fun a b => b.start ≤ a.start) := by
          refine List.pairwise_cons.2 ⟨?_, hacc⟩
          intro z hz
          exact hcross z hz c (List.mem_cons_self _ _)
        have hcross' : ∀ a ∈ c :: last :: accT, ∀ x ∈ rest, a.start ≤ x.start := by
          intro a ha x hx
          rcases List.mem_cons.1 ha with rfl | ha
          · exact hcfirst x hx
          · exact hcross a ha x (List.mem_cons_of_mem _ hx)
        rcases ih _ hacc' hcross' hrest' with ⟨h1, h2⟩
        refine ⟨h1, ?_⟩
        simp only [List.length_cons] at h2 ⊢
        omega

/-- C10: on an input list that is non-decreasing in `start`,
`_merge_consecutive_segments` returns a list that is still non-decreasing in
`start` and no longer than the input (the function builds its output from
copies, leaving the input untouched — inherent in this purely functional
embedding of its copy-and-append discipline). -/
theorem merge_consecutive_preserves_order_and_length (segs : List TranscriptSeg)
    (h : segs.Pairwise tsStartLe) :
    (mergeConsecutiveSegments segs).Pairwise tsStartLe ∧
      (mergeConsecutiveSegments segs).length ≤ segs.length := by
  cases segs with
  | nil => exact ⟨List.Pairwise.nil, by simp [mergeConsecutiveSegments]⟩
  | cons s rest =>
    have h1 : rest.Pairwise tsStartLe := (List.pairwise_cons.1 h).2
    have h2 : ∀ x ∈ rest, tsStartLe s x := (List.pairwise_cons.1 h).1
    have hcross : ∀ a ∈ [s], ∀ x ∈ rest, a.start ≤ x.start := by
      intro a ha x hx
      rcases List.mem_singleton.1 ha with rfl
      exact h2 x hx
    rcases mergeConsecutiveLoop_invariant rest [s] (List.pairwise_singleton _ _)
      hcross h1 with ⟨hp, hl⟩
    refine ⟨hp, ?_⟩
    simp only [mergeConsecutiveSegments, List.length_cons]
    simp only [List.length_singleton] at hl
    omega

/-- First concrete transcript segment for the C10 witness. -/
def tsegA : TranscriptSeg :=
  { start := 0, «end» := 1, text := "hello", username := "alice" }

/-- Second concrete transcript segment for the C10 witness. -/
def tsegB : TranscriptSeg :=
  { start := 2, «end» := 3, text := "there", username := "alice" }

/-- C10 witness: a concrete sorted two-segment list stays sorted and does
not grow. -/
theorem merge_consecutive_preserves_order_and_length_witness :
    ([tsegA, tsegB].Pairwise tsStartLe) ∧
      (mergeConsecutiveSegments [tsegA, tsegB]).Pairwise tsStartLe ∧
        (mergeConsecutiveSegments [tsegA, tsegB]).length ≤ ([tsegA, tsegB]).length :=
  ⟨by decide, merge_consecutive_preserves_order_and_length [tsegA, tsegB] (by decide)⟩
